import Mathlib

/-!
Verification of the MapReduce engine (src/mapreduce.c, src/threadpool.c).

Shallow embedding conventions:
* C strings (`char *`) are NUL-terminated byte sequences; we model them as
  `List Nat` of their bytes (each byte nonzero, but ordering facts hold for
  arbitrary `Nat` entries).  A possibly-NULL pointer argument is an `Option`.
* `unsigned long` arithmetic wraps modulo `2 ^ 64`.
* The global partition array (`partitions`, `num_partitions`) is a state
  record threaded explicitly; `num_partitions` is the length of the array.
-/

namespace MapReduce

/-- Byte-string model of a `char *` C string (the bytes before the NUL). -/
abbrev Bytes := List Nat

/-- C `strcmp` on byte strings, returning the sign of the result
(`.lt` for negative, `.eq` for zero, `.gt` for positive). -/
def strcmp : Bytes → Bytes → Ordering
  | [], [] => Ordering.eq
  | [], _ :: _ => Ordering.lt
  | _ :: _, [] => Ordering.gt
  | a :: as, b :: bs =>
    if a < b then Ordering.lt
    else if b < a then Ordering.gt
    else strcmp as bs

theorem strcmp_eq_iff : ∀ a b : Bytes, strcmp a b = Ordering.eq ↔ a = b
  | [], [] => by simp [strcmp]
  | [], _ :: _ => by simp [strcmp]
  | _ :: _, [] => by simp [strcmp]
  | a :: as, b :: bs => by
    simp only [strcmp]
    split
    · next h => simp; omega
    · split
      · next h h' => simp; omega
      · next h h' =>
        have hab : a = b := by omega
        subst hab
        simp [strcmp_eq_iff as bs]

theorem strcmp_swap : ∀ a b : Bytes, (strcmp a b).swap = strcmp b a
  | [], [] => rfl
  | [], _ :: _ => rfl
  | _ :: _, [] => rfl
  | a :: as, b :: bs => by
    simp only [strcmp]
    rcases Nat.lt_trichotomy a b with h | h | h
    · simp [h, Nat.not_lt.mpr (Nat.le_of_lt h), Ordering.swap]
    · subst h
      simp [Nat.lt_irrefl, strcmp_swap as bs]
    · simp [h, Nat.not_lt.mpr (Nat.le_of_lt h), Ordering.swap]

theorem strcmp_lt_iff_gt {a b : Bytes} :
    strcmp a b = Ordering.lt ↔ strcmp b a = Ordering.gt := by
  rw [← strcmp_swap a b]
  cases strcmp a b <;> simp [Ordering.swap]

theorem strcmp_lt_trans :
    ∀ {a b c : Bytes}, strcmp a b = Ordering.lt → strcmp b c = Ordering.lt →
      strcmp a c = Ordering.lt := by
  intro a
  induction a with
  | nil =>
    intro b c hab hbc
    cases b with
    | nil => exact hbc
    | cons y bs =>
      cases c with
      | nil => simp [strcmp] at hbc
      | cons z cs => rfl
  | cons x as ih =>
    intro b c hab hbc
    cases b with
    | nil => simp [strcmp] at hab
    | cons y bs =>
      cases c with
      | nil => simp [strcmp] at hbc
      | cons z cs =>
        simp only [strcmp] at hab hbc ⊢
        by_cases hxy : x < y
        · by_cases hyz : y < z
          · simp [Nat.lt_trans hxy hyz]
          · by_cases hzy : z < y
            · simp [hyz, hzy] at hbc
            · have : y = z := by omega
              subst this
              simp [hxy]
        · by_cases hyx : y < x
          · simp [hxy, hyx] at hab
          · have hx : x = y := by omega
            subst hx
            simp only [Nat.lt_irrefl, if_false] at hab
            by_cases hxz : x < z
            · simp [hxz]
            · by_cases hzx : z < x
              · simp [hxz, hzx] at hbc
              · simp only [hxz, hzx, if_false] at hbc ⊢
                exact ih hab hbc

/-- Byte-string `≤` as decided by `strcmp` (result `<= 0`). -/
def sLE (a b : Bytes) : Prop := strcmp a b ≠ Ordering.gt

instance : DecidableRel sLE := fun a b => by
  unfold sLE; infer_instance

theorem sLE_iff {a b : Bytes} :
    sLE a b ↔ strcmp a b = Ordering.lt ∨ a = b := by
  constructor
  · intro h
    cases hc : strcmp a b with
    | lt => exact Or.inl rfl
    | eq => exact Or.inr ((strcmp_eq_iff a b).1 hc)
    | gt => exact absurd hc h
  · rintro (h | rfl)
    · simp [sLE, h]
    · simp [sLE, (strcmp_eq_iff a a).2 rfl]

theorem sLE_total (a b : Bytes) : sLE a b ∨ sLE b a := by
  by_cases h : strcmp a b = Ordering.gt
  · right
    intro hba
    rw [← strcmp_swap a b, h] at hba
    simp [Ordering.swap] at hba
  · exact Or.inl h

theorem sLE_trans {a b c : Bytes} (hab : sLE a b) (hbc : sLE b c) : sLE a c := by
  rcases sLE_iff.1 hab with h1 | rfl
  · rcases sLE_iff.1 hbc with h2 | rfl
    · exact sLE_iff.2 (Or.inl (strcmp_lt_trans h1 h2))
    · exact sLE_iff.2 (Or.inl h1)
  · exact hbc

theorem sLT_of_sLT_of_sLE {a b c : Bytes}
    (hab : strcmp a b = Ordering.lt) (hbc : sLE b c) :
    strcmp a c = Ordering.lt := by
  rcases sLE_iff.1 hbc with h2 | rfl
  · exact strcmp_lt_trans hab h2
  · exact hab

/-- A key/value pair node (`struct KVPair`); the `next` link is the list
structure itself. -/
structure KVPair where
  key : Bytes
  value : Bytes
  deriving DecidableEq

/-- Order on pairs used by the sorted partition lists: key comparison. -/
def pairLE (a b : KVPair) : Prop := sLE a.key b.key

instance : DecidableRel pairLE := fun a b => by
  unfold pairLE; infer_instance

instance : IsTotal KVPair pairLE := ⟨fun a b => sLE_total a.key b.key⟩

instance : IsTrans KVPair pairLE := ⟨fun _ _ _ => sLE_trans⟩

/-- The walk of `insert_sorted`: `curr` advances while the next node's key is
strictly below the new pair's key; the new node is spliced in before the
first node whose key compares `>=`.  This is the list seen after `curr`. -/
def insert_walk (pair : KVPair) : List KVPair → List KVPair
  | [] => [pair]
  | nxt :: rest =>
    if strcmp nxt.key pair.key = Ordering.lt then nxt :: insert_walk pair rest
    else pair :: nxt :: rest

/-- `insert_sorted` from src/mapreduce.c: prepend when the list is empty or
the head's key compares `>= 0` against the new key, otherwise walk to the
insertion point. -/
def insert_sorted (pair : KVPair) (l : List KVPair) : List KVPair :=
  match l with
  | [] => [pair]
  | h :: t =>
    if strcmp h.key pair.key ≠ Ordering.lt then pair :: h :: t
    else h :: insert_walk pair t

theorem insert_walk_eq_orderedInsert (pair : KVPair) :
    ∀ l : List KVPair, insert_walk pair l = List.orderedInsert pairLE pair l
  | [] => rfl
  | nxt :: rest => by
    simp only [insert_walk, List.orderedInsert]
    have hiff : pairLE pair nxt ↔ ¬ strcmp nxt.key pair.key = Ordering.lt := by
      unfold pairLE sLE
      rw [strcmp_lt_iff_gt]
    by_cases h : strcmp nxt.key pair.key = Ordering.lt
    · simp [h, hiff, insert_walk_eq_orderedInsert pair rest]
    · simp [h, hiff.2 h]

theorem insert_sorted_eq_orderedInsert (pair : KVPair) (l : List KVPair) :
    insert_sorted pair l = List.orderedInsert pairLE pair l := by
  cases l with
  | nil => rfl
  | cons h t =>
    simp only [insert_sorted, List.orderedInsert]
    have hiff : pairLE pair h ↔ ¬ strcmp h.key pair.key = Ordering.lt := by
      unfold pairLE sLE
      rw [strcmp_lt_iff_gt]
    by_cases hc : strcmp h.key pair.key = Ordering.lt
    · simp [hc, hiff, insert_walk_eq_orderedInsert pair t]
    · simp [hc, hiff.2 hc]

theorem insert_sorted_sorted {l : List KVPair} (pair : KVPair)
    (h : List.Sorted pairLE l) : List.Sorted pairLE (insert_sorted pair l) := by
  rw [insert_sorted_eq_orderedInsert]
  exact List.Sorted.orderedInsert pair l h

theorem insert_sorted_perm (pair : KVPair) (l : List KVPair) :
    List.Perm (insert_sorted pair l) (pair :: l) := by
  rw [insert_sorted_eq_orderedInsert]
  exact List.perm_orderedInsert pairLE pair l

/-- A partition bucket (`Partition` in src/mapreduce.c): the sorted pair
list and the byte accumulator.  The mutex has no sequential content. -/
structure Partition where
  head : List KVPair
  bytes : Nat
  deriving DecidableEq

/-- The empty bucket, as initialized by `MR_Run`. -/
def Partition.empty : Partition := ⟨[], 0⟩

/-- The global engine state: the `partitions` array.  `num_partitions` is
its length. -/
structure MRState where
  partitions : List Partition
  deriving DecidableEq

/-- `num_partitions` of a state. -/
def MRState.P (s : MRState) : Nat := s.partitions.length

/-- `partitions[idx]` (out-of-range reads, which the C code never performs,
default to the empty bucket). -/
def MRState.part (s : MRState) (idx : Nat) : Partition :=
  s.partitions.getD idx Partition.empty

/-- The state set up by `MR_Run` for `num_parts` partitions: every bucket
has a NULL head and zero bytes. -/
def MR_init (num_parts : Nat) : MRState :=
  ⟨List.replicate num_parts Partition.empty⟩

/-- `MR_Partitioner` from src/mapreduce.c: the djb2 hash.  `hash` is a C
`unsigned long` (64 bits); `(hash << 5) + hash + c` is `hash * 33 + c`
modulo `2 ^ 64`.  The result is reduced mod `num_partitions`. -/
def MR_Partitioner (key : Bytes) (num_partitions : Nat) : Nat :=
  (key.foldl (fun hash c => (hash * 33 + c) % 2 ^ 64) 5381) % num_partitions

/-- `MR_Emit` from src/mapreduce.c.  NULL key, NULL value or
`num_partitions == 0` is a silent no-op; otherwise the pair is copied,
inserted sorted into its partition, and the byte accumulator grows by
`strlen(key) + strlen(value) + 2`. -/
def MR_Emit (key value : Option Bytes) (s : MRState) : MRState :=
  match key, value with
  | some k, some v =>
    if s.P = 0 then s
    else
      let idx := MR_Partitioner k s.P
      let part := s.part idx
      ⟨s.partitions.set idx
        ⟨insert_sorted ⟨k, v⟩ part.head, part.bytes + (k.length + v.length + 2)⟩⟩
  | _, _ => s

/-- `MR_GetNext` from src/mapreduce.c.  Returns NULL on a NULL key or an
out-of-range partition index, or when the partition is empty or its head
key differs from `key`; otherwise pops the head pair and returns its value.
The byte accumulator is left untouched. -/
def MR_GetNext (key : Option Bytes) (partition_idx : Nat) (s : MRState) :
    Option Bytes × MRState :=
  match key with
  | none => (none, s)
  | some k =>
    if s.P ≤ partition_idx then (none, s)
    else
      match (s.part partition_idx).head with
      | [] => (none, s)
      | pair :: rest =>
        if strcmp pair.key k ≠ Ordering.eq then (none, s)
        else
          (some pair.value,
            ⟨s.partitions.set partition_idx ⟨rest, (s.part partition_idx).bytes⟩⟩)

/-- An operation at the emit/get_next boundary. -/
inductive MROp where
  | emit (key value : Option Bytes)
  | getNext (key : Option Bytes) (partition_idx : Nat)
  deriving DecidableEq

/-- Apply one operation to the state (the value returned by `MR_GetNext`
is dropped). -/
def applyOp (s : MRState) (op : MROp) : MRState :=
  match op with
  | .emit k v => MR_Emit k v s
  | .getNext k idx => (MR_GetNext k idx s).2

/-- Apply a sequence of operations in order. -/
def applyOps (ops : List MROp) (s : MRState) : MRState :=
  ops.foldl applyOp s

/-- Apply a sequence of (non-NULL) emits in order. -/
def applyEmits (es : List (Bytes × Bytes)) (s : MRState) : MRState :=
  es.foldl (fun s e => MR_Emit (some e.1) (some e.2) s) s

/-- Repeatedly call `MR_GetNext key partition_idx` until it returns NULL,
collecting the returned values; `fuel` bounds the iteration. -/
def drainState (fuel : Nat) (key : Bytes) (partition_idx : Nat) (s : MRState) :
    List Bytes × MRState :=
  match fuel with
  | 0 => ([], s)
  | fuel + 1 =>
    match MR_GetNext (some key) partition_idx s with
    | (none, s') => ([], s')
    | (some v, s') =>
      let r := drainState fuel key partition_idx s'
      (v :: r.1, r.2)

/-! ## Thread pool (src/threadpool.c), sequential content -/

/-- A job record (`ThreadPool_job_t`): the function pointer and argument
are opaque, modelled by identifiers; `job_size` is the SJF ordering key.
The `next` link is the list structure itself. -/
structure ThreadPool_job_t where
  fn : Nat
  arg : Nat
  job_size : Nat
  deriving DecidableEq

/-- The queue (`ThreadPool_job_queue_t`): head-sorted list plus the
`size` counter maintained by the C code. -/
structure ThreadPool_job_queue_t where
  head : List ThreadPool_job_t
  size : Nat
  deriving DecidableEq

/-- Job order used by the SJF queue: ascending `job_size`. -/
def jobLE (a b : ThreadPool_job_t) : Prop := a.job_size ≤ b.job_size

instance : DecidableRel jobLE := fun a b => by
  unfold jobLE; infer_instance

instance : IsTotal ThreadPool_job_t jobLE := ⟨fun a b => Nat.le_total a.job_size b.job_size⟩

instance : IsTrans ThreadPool_job_t jobLE := ⟨fun _ _ _ => Nat.le_trans⟩

/-- The walk of `add_job_to_queue`: advance while the next node's
`job_size` is strictly smaller, then splice the new job in. -/
def job_walk (job : ThreadPool_job_t) : List ThreadPool_job_t → List ThreadPool_job_t
  | [] => [job]
  | nxt :: rest =>
    if nxt.job_size < job.job_size then nxt :: job_walk job rest
    else job :: nxt :: rest

/-- `add_job_to_queue` from src/threadpool.c: prepend when the queue is
empty or the head's size is `>=` the new job's, otherwise walk to the
insertion point; `size` is incremented. -/
def add_job_to_queue (q : ThreadPool_job_queue_t) (job : ThreadPool_job_t) :
    ThreadPool_job_queue_t :=
  match q.head with
  | [] => ⟨[job], q.size + 1⟩
  | h :: t =>
    if job.job_size ≤ h.job_size then ⟨job :: h :: t, q.size + 1⟩
    else ⟨h :: job_walk job t, q.size + 1⟩

theorem job_walk_eq_orderedInsert (job : ThreadPool_job_t) :
    ∀ l : List ThreadPool_job_t, job_walk job l = List.orderedInsert jobLE job l
  | [] => rfl
  | nxt :: rest => by
    simp only [job_walk, List.orderedInsert]
    by_cases h : nxt.job_size < job.job_size
    · have : ¬ jobLE job nxt := by unfold jobLE; omega
      simp [h, this, job_walk_eq_orderedInsert job rest]
    · have : jobLE job nxt := by unfold jobLE; omega
      simp [h, this]

theorem add_job_to_queue_head (q : ThreadPool_job_queue_t) (job : ThreadPool_job_t) :
    (add_job_to_queue q job).head = List.orderedInsert jobLE job q.head := by
  cases hq : q.head with
  | nil => simp [add_job_to_queue, hq, List.orderedInsert]
  | cons h t =>
    simp only [add_job_to_queue, hq, List.orderedInsert]
    by_cases hle : job.job_size ≤ h.job_size
    · have : jobLE job h := hle
      simp [hle, this]
    · have : ¬ jobLE job h := hle
      simp [hle, this, job_walk_eq_orderedInsert job t]

/-- Pool state (`ThreadPool_t`): the roster size, the `active_workers`
counter, the job queue and the `stop` flag.  Mutex, condition variables
and the thread handles have no sequential content. -/
structure ThreadPool_t where
  num_threads : Nat
  active_workers : Nat
  jobs : ThreadPool_job_queue_t
  stop : Bool
  deriving DecidableEq

/-- `ThreadPool_create` from src/threadpool.c: rejects `num == 0`,
otherwise starts with an empty queue, zero active workers and `stop`
cleared. -/
def ThreadPool_create (num : Nat) : Option ThreadPool_t :=
  if num = 0 then none
  else some ⟨num, 0, ⟨[], 0⟩, false⟩

/-- `ThreadPool_add_job` from src/threadpool.c: when `stop` is set the
freshly allocated job is freed and `false` is returned with the pool
unchanged; otherwise the job is enqueued and `true` is returned. -/
def ThreadPool_add_job (tp : ThreadPool_t) (fn arg job_size : Nat) :
    Bool × ThreadPool_t :=
  if tp.stop then (false, tp)
  else (true, { tp with jobs := add_job_to_queue tp.jobs ⟨fn, arg, job_size⟩ })

/-- `ThreadPool_get_job` from src/threadpool.c: pop the head job (NULL on
an empty queue) and decrement `size`. -/
def ThreadPool_get_job (tp : ThreadPool_t) : Option ThreadPool_job_t × ThreadPool_t :=
  match tp.jobs.head with
  | [] => (none, tp)
  | j :: rest => (some j, { tp with jobs := ⟨rest, tp.jobs.size - 1⟩ })

/-- A queue-affecting operation: an `add_job_to_queue` insertion or a
`ThreadPool_get_job` removal. -/
inductive QOp where
  | add (job : ThreadPool_job_t)
  | get
  deriving DecidableEq

/-- Apply one queue operation to the pool. -/
def applyQOp (tp : ThreadPool_t) : QOp → ThreadPool_t
  | .add job => { tp with jobs := add_job_to_queue tp.jobs job }
  | .get => (ThreadPool_get_job tp).2

/-- Apply a sequence of queue operations in order. -/
def applyQOps (ops : List QOp) (tp : ThreadPool_t) : ThreadPool_t :=
  ops.foldl applyQOp tp

/-! ## State access lemmas -/

theorem MR_Partitioner_lt (key : Bytes) {P : Nat} (h : 0 < P) :
    MR_Partitioner key P < P :=
  Nat.mod_lt _ h

theorem P_mk_set (s : MRState) (idx : Nat) (p : Partition) :
    (MRState.mk (s.partitions.set idx p)).P = s.P := by
  simp [MRState.P]

theorem part_set_self {s : MRState} {idx : Nat} (p : Partition) (h : idx < s.P) :
    (MRState.mk (s.partitions.set idx p)).part idx = p := by
  simp only [MRState.part, List.getD, List.get?_eq_getElem?]
  rw [List.getElem?_set_eq_of_lt p h]
  rfl

theorem part_set_ne {s : MRState} {idx idx' : Nat} (p : Partition) (h : idx' ≠ idx) :
    (MRState.mk (s.partitions.set idx p)).part idx' = s.part idx' := by
  simp only [MRState.part, List.getD, List.get?_eq_getElem?]
  rw [List.getElem?_set_ne (by omega)]

theorem part_init (num_parts idx : Nat) :
    (MR_init num_parts).part idx = Partition.empty := by
  simp only [MR_init, MRState.part, List.getD, List.get?_eq_getElem?]
  by_cases h : idx < num_parts
  · rw [List.getElem?_eq_getElem (by simpa using h)]
    simp
  · rw [List.getElem?_eq_none (by simpa using Nat.le_of_not_lt h)]
    rfl

theorem P_init (num_parts : Nat) : (MR_init num_parts).P = num_parts := by
  simp [MR_init, MRState.P]

theorem MR_Emit_P (key value : Option Bytes) (s : MRState) :
    (MR_Emit key value s).P = s.P := by
  match key, value with
  | some k, some v =>
    simp only [MR_Emit]
    split
    · rfl
    · exact P_mk_set s _ _
  | none, _ => rfl
  | some _, none => rfl

theorem MR_Emit_part_hit (k v : Bytes) (s : MRState) (h : 0 < s.P) :
    (MR_Emit (some k) (some v) s).part (MR_Partitioner k s.P) =
      ⟨insert_sorted ⟨k, v⟩ (s.part (MR_Partitioner k s.P)).head,
        (s.part (MR_Partitioner k s.P)).bytes + (k.length + v.length + 2)⟩ := by
  simp only [MR_Emit]
  rw [if_neg (by omega)]
  exact part_set_self _ (MR_Partitioner_lt k h)

theorem MR_Emit_part_miss (k v : Bytes) (s : MRState) {idx : Nat}
    (h : idx ≠ MR_Partitioner k s.P) :
    (MR_Emit (some k) (some v) s).part idx = s.part idx := by
  simp only [MR_Emit]
  split
  · rfl
  · exact part_set_ne _ h

theorem MR_GetNext_P (key : Option Bytes) (idx : Nat) (s : MRState) :
    ((MR_GetNext key idx s).2).P = s.P := by
  match key with
  | none => rfl
  | some k =>
    simp only [MR_GetNext]
    split
    · rfl
    · split
      · rfl
      · split
        · rfl
        · exact P_mk_set s _ _

theorem MR_GetNext_part_ne (key : Option Bytes) {idx idx' : Nat} (s : MRState)
    (h : idx' ≠ idx) :
    ((MR_GetNext key idx s).2).part idx' = s.part idx' := by
  match key with
  | none => rfl
  | some k =>
    simp only [MR_GetNext]
    split
    · rfl
    · split
      · rfl
      · split
        · rfl
        · exact part_set_ne _ h

/-- `MR_GetNext` leaves the byte accumulator alone and either leaves the
target partition's list unchanged or pops exactly its head. -/
theorem MR_GetNext_part_self (key : Option Bytes) (idx : Nat) (s : MRState) :
    ((MR_GetNext key idx s).2.part idx).bytes = (s.part idx).bytes ∧
    (((MR_GetNext key idx s).2.part idx).head = (s.part idx).head ∨
      ∃ pair, (s.part idx).head =
        pair :: ((MR_GetNext key idx s).2.part idx).head) := by
  match key with
  | none => exact ⟨rfl, Or.inl rfl⟩
  | some k =>
    simp only [MR_GetNext]
    split
    · exact ⟨rfl, Or.inl rfl⟩
    · next hlt =>
      split
      · exact ⟨rfl, Or.inl rfl⟩
      · next pair rest hhead =>
        split
        · exact ⟨rfl, Or.inl rfl⟩
        · rw [part_set_self _ (by omega)]
          exact ⟨rfl, Or.inr ⟨pair, by rw [hhead]⟩⟩

/-! ## Spec-side definitions (for the refinement claims) -/

/-- The djb2 hash as the spec words it: start with `5381`, update
`h = h * 33 + c` for each byte `c` using unsigned (64-bit wrapping)
arithmetic.  (Written from the spec §4.1, to be compared with
`MR_Partitioner`.) -/
def djb2_spec (key : Bytes) : Nat :=
  (key.foldl (fun h c => h * 33 + c) 5381) % 2 ^ 64

/-- The spec's partition assignment: `djb2(key) mod P`. -/
def partitioner_spec (key : Bytes) (P : Nat) : Nat :=
  djb2_spec key % P

theorem foldl_hash_mod (key : Bytes) :
    ∀ h : Nat,
      key.foldl (fun h c => (h * 33 + c) % 2 ^ 64) (h % 2 ^ 64) =
        (key.foldl (fun h c => h * 33 + c) h) % 2 ^ 64 := by
  induction key with
  | nil => intro h; rfl
  | cons c key ih =>
    intro h
    simp only [List.foldl_cons]
    have hstep : (h % 2 ^ 64 * 33 + c) % 2 ^ 64 = (h * 33 + c) % 2 ^ 64 :=
      ((Nat.mod_modEq h (2 ^ 64)).mul_right 33).add_right c
    rw [hstep, ← ih (h * 33 + c)]

/-! ## Derived quantities -/

/-- The byte contribution of one live pair:
`strlen(key) + strlen(value) + 2`. -/
def pairBytes (pair : KVPair) : Nat :=
  pair.key.length + pair.value.length + 2

/-- Sum of `pairBytes` over a partition list ("the sum over live pairs"). -/
def liveBytes (l : List KVPair) : Nat :=
  (l.map pairBytes).sum

/-- The pairs of an emit sequence that the partitioner routes to
partition `idx`. -/
def routed (P idx : Nat) (es : List (Bytes × Bytes)) : List KVPair :=
  es.filterMap fun e =>
    if MR_Partitioner e.1 P = idx then some ⟨e.1, e.2⟩ else none

/-- The values emitted for key `k`, in emission order. -/
def emittedFor (k : Bytes) (es : List (Bytes × Bytes)) : List Bytes :=
  es.filterMap fun e => if e.1 = k then some e.2 else none

/-! ## Emit-sequence invariants -/

theorem MR_Emit_zero {s : MRState} (k v : Bytes) (h : s.P = 0) :
    MR_Emit (some k) (some v) s = s := by
  simp [MR_Emit, h]

theorem MR_Emit_sorted {s : MRState} (k v : Bytes)
    (h : ∀ idx, List.Sorted pairLE (s.part idx).head) :
    ∀ idx, List.Sorted pairLE ((MR_Emit (some k) (some v) s).part idx).head := by
  intro idx
  by_cases hP : s.P = 0
  · rw [MR_Emit_zero k v hP]
    exact h idx
  · by_cases hidx : idx = MR_Partitioner k s.P
    · subst hidx
      rw [MR_Emit_part_hit k v s (Nat.pos_of_ne_zero hP)]
      exact insert_sorted_sorted _ (h _)
    · rw [MR_Emit_part_miss k v s hidx]
      exact h idx

theorem applyEmits_sorted (es : List (Bytes × Bytes)) :
    ∀ s : MRState, (∀ idx, List.Sorted pairLE (s.part idx).head) →
      ∀ idx, List.Sorted pairLE ((applyEmits es s).part idx).head := by
  induction es with
  | nil => intro s h; exact h
  | cons e es ih =>
    intro s h
    exact ih (MR_Emit (some e.1) (some e.2) s) (MR_Emit_sorted e.1 e.2 h)

theorem init_sorted (P idx : Nat) :
    List.Sorted pairLE ((MR_init P).part idx).head := by
  rw [part_init]
  exact List.sorted_nil

theorem applyEmits_P (es : List (Bytes × Bytes)) :
    ∀ s : MRState, (applyEmits es s).P = s.P := by
  induction es with
  | nil => intro s; rfl
  | cons e es ih =>
    intro s
    calc (applyEmits es (MR_Emit (some e.1) (some e.2) s)).P
        = (MR_Emit (some e.1) (some e.2) s).P := ih _
      _ = s.P := MR_Emit_P _ _ _

theorem applyEmits_part_perm (es : List (Bytes × Bytes)) :
    ∀ (s : MRState) (idx : Nat), 0 < s.P →
      List.Perm ((applyEmits es s).part idx).head
        (routed s.P idx es ++ (s.part idx).head) := by
  induction es with
  | nil =>
    intro s idx _
    exact List.Perm.refl _
  | cons e es ih =>
    intro s idx hP
    have hP' : (MR_Emit (some e.1) (some e.2) s).P = s.P := MR_Emit_P _ _ _
    have step := ih (MR_Emit (some e.1) (some e.2) s) idx (by rw [hP']; exact hP)
    rw [hP'] at step
    by_cases hidx : idx = MR_Partitioner e.1 s.P
    · subst hidx
      rw [MR_Emit_part_hit e.1 e.2 s hP] at step
      have hroute : routed s.P (MR_Partitioner e.1 s.P) (e :: es) =
          ⟨e.1, e.2⟩ :: routed s.P (MR_Partitioner e.1 s.P) es := by
        simp [routed]
      rw [hroute]
      refine step.trans ?_
      exact ((insert_sorted_perm ⟨e.1, e.2⟩ _).append_left _).trans List.perm_middle
    · rw [MR_Emit_part_miss e.1 e.2 s hidx] at step
      have hcond : ¬ (MR_Partitioner e.1 s.P = idx) := fun h => hidx h.symm
      have hroute : routed s.P idx (e :: es) = routed s.P idx es := by
        simp [routed, hcond]
      rw [hroute]
      exact step

/-! ## Draining a key by repeated `MR_GetNext` -/

theorem MR_GetNext_empty {s : MRState} {idx : Nat} (k : Bytes)
    (hidx : idx < s.P) (h : (s.part idx).head = []) :
    MR_GetNext (some k) idx s = (none, s) := by
  simp [MR_GetNext, Nat.not_le.mpr hidx, h]

theorem MR_GetNext_keymiss {s : MRState} {idx : Nat} {pair : KVPair}
    {rest : List KVPair} (k : Bytes) (hidx : idx < s.P)
    (h : (s.part idx).head = pair :: rest)
    (hne : strcmp pair.key k ≠ Ordering.eq) :
    MR_GetNext (some k) idx s = (none, s) := by
  simp [MR_GetNext, Nat.not_le.mpr hidx, h, hne]

theorem MR_GetNext_pop {s : MRState} {idx : Nat} {pair : KVPair}
    {rest : List KVPair} (k : Bytes) (hidx : idx < s.P)
    (h : (s.part idx).head = pair :: rest)
    (heq : strcmp pair.key k = Ordering.eq) :
    MR_GetNext (some k) idx s =
      (some pair.value,
        ⟨s.partitions.set idx ⟨rest, (s.part idx).bytes⟩⟩) := by
  simp [MR_GetNext, Nat.not_le.mpr hidx, h, heq]

/-- Whether a pair's key `strcmp`-matches `k`. -/
def keyMatches (k : Bytes) (pair : KVPair) : Bool :=
  decide (strcmp pair.key k = Ordering.eq)

theorem drainState_eq (k : Bytes) :
    ∀ (fuel : Nat) (s : MRState) (idx : Nat), idx < s.P →
      (s.part idx).head.length ≤ fuel →
      (drainState fuel k idx s).1 =
        ((s.part idx).head.takeWhile (keyMatches k)).map KVPair.value := by
  intro fuel
  induction fuel with
  | zero =>
    intro s idx _ hlen
    have : (s.part idx).head = [] := List.length_eq_zero.mp (Nat.le_zero.mp hlen)
    simp [drainState, this]
  | succ fuel ih =>
    intro s idx hidx hlen
    cases hhead : (s.part idx).head with
    | nil =>
      simp only [drainState, MR_GetNext_empty k hidx hhead, hhead,
        List.takeWhile_nil, List.map_nil]
    | cons pair rest =>
      by_cases heq : strcmp pair.key k = Ordering.eq
      · have hpop := MR_GetNext_pop k hidx hhead heq
        have hstate :
            ((⟨s.partitions.set idx ⟨rest, (s.part idx).bytes⟩⟩ : MRState)).part idx =
              ⟨rest, (s.part idx).bytes⟩ := part_set_self _ hidx
        have hP' :
            ((⟨s.partitions.set idx ⟨rest, (s.part idx).bytes⟩⟩ : MRState)).P = s.P :=
          P_mk_set s idx _
        have htail := ih (⟨s.partitions.set idx ⟨rest, (s.part idx).bytes⟩⟩ : MRState)
          idx (by rw [hP']; exact hidx)
          (by
            rw [hstate]
            show rest.length ≤ fuel
            have hl : (pair :: rest).length ≤ fuel + 1 := by
              rw [← hhead]; exact hlen
            simp only [List.length_cons] at hl
            omega)
        rw [hstate] at htail
        simp only [drainState, hpop, htail, hhead, List.takeWhile_cons, keyMatches]
        simp [heq]
      · have hmiss := MR_GetNext_keymiss k hidx hhead heq
        simp only [drainState, hmiss, hhead, List.takeWhile_cons, keyMatches]
        simp [heq]

/-- In a sorted list where every key other than `k` is strictly above `k`,
the `k`-prefix is the whole `k`-membership. -/
theorem takeWhile_eq_filter_of_min (k : Bytes) :
    ∀ l : List KVPair, List.Sorted pairLE l →
      (∀ pair ∈ l, pair.key ≠ k → strcmp k pair.key = Ordering.lt) →
      l.takeWhile (keyMatches k) = l.filter (keyMatches k) := by
  intro l
  induction l with
  | nil => intro _ _; rfl
  | cons pair rest ih =>
    intro hsorted hmin
    by_cases hk : pair.key = k
    · have hmatch : keyMatches k pair = true := by
        simp [keyMatches, (strcmp_eq_iff pair.key k).2 hk]
      rw [List.takeWhile_cons, List.filter_cons, hmatch]
      simp only [if_true]
      rw [ih hsorted.of_cons (fun p hp => hmin p (List.mem_cons_of_mem pair hp))]
    · have hlt : strcmp k pair.key = Ordering.lt :=
        hmin pair (List.mem_cons_self pair rest) hk
      have hmatch : keyMatches k pair = false := by
        simp only [keyMatches, decide_eq_false_iff_not]
        intro h
        exact hk ((strcmp_eq_iff pair.key k).1 h)
      rw [List.takeWhile_cons, List.filter_cons, hmatch]
      have hnil : rest.filter (keyMatches k) = [] := by
        rw [List.filter_eq_nil_iff]
        intro x hx
        have hle : pairLE pair x := List.rel_of_sorted_cons hsorted x hx
        have hxlt : strcmp k x.key = Ordering.lt := sLT_of_sLT_of_sLE hlt hle
        simp only [keyMatches, decide_eq_true_eq]
        intro hcontr
        rw [(strcmp_eq_iff x.key k).1 hcontr] at hxlt
        rw [(strcmp_eq_iff k k).2 rfl] at hxlt
        exact absurd hxlt (by simp)
      simp [hnil]

theorem filter_routed (k : Bytes) (P : Nat) :
    ∀ es : List (Bytes × Bytes),
      (routed P (MR_Partitioner k P) es).filter (keyMatches k) =
        (emittedFor k es).map (fun v => (⟨k, v⟩ : KVPair)) := by
  intro es
  induction es with
  | nil => rfl
  | cons e es ih =>
    by_cases hk : e.1 = k
    · have hcond : MR_Partitioner e.1 P = MR_Partitioner k P := by rw [hk]
      have h1 : routed P (MR_Partitioner k P) (e :: es) =
          ⟨e.1, e.2⟩ :: routed P (MR_Partitioner k P) es := by
        simp [routed, hcond]
      have h2 : emittedFor k (e :: es) = e.2 :: emittedFor k es := by
        simp [emittedFor, hk]
      have hmatch : keyMatches k ⟨e.1, e.2⟩ = true := by
        simp [keyMatches, strcmp_eq_iff, hk]
      rw [h1, h2, List.filter_cons]
      simp [hmatch, ih, hk, keyMatches, strcmp_eq_iff]
    · have h2 : emittedFor k (e :: es) = emittedFor k es := by
        simp [emittedFor, hk]
      by_cases hroute : MR_Partitioner e.1 P = MR_Partitioner k P
      · have h1 : routed P (MR_Partitioner k P) (e :: es) =
            ⟨e.1, e.2⟩ :: routed P (MR_Partitioner k P) es := by
          simp [routed, hroute]
        have hmatch : keyMatches k ⟨e.1, e.2⟩ = false := by
          simp only [keyMatches, decide_eq_false_iff_not]
          intro h
          exact hk ((strcmp_eq_iff e.1 k).1 h)
        rw [h1, h2, List.filter_cons]
        simp [hmatch, ih]
      · have h1 : routed P (MR_Partitioner k P) (e :: es) =
            routed P (MR_Partitioner k P) es := by
          simp [routed, hroute]
        rw [h1, h2, ih]

/-! ## Same-key emit sequences (LIFO order) -/

theorem applyEmits_const_key (k : Bytes) :
    ∀ (vs : List Bytes) (s : MRState), 0 < s.P →
      (∀ pair ∈ (s.part (MR_Partitioner k s.P)).head, pair.key = k) →
      ((applyEmits (vs.map fun v => (k, v)) s).part (MR_Partitioner k s.P)).head =
        (vs.reverse.map fun v => (⟨k, v⟩ : KVPair)) ++
          (s.part (MR_Partitioner k s.P)).head := by
  intro vs
  induction vs with
  | nil =>
    intro s _ _
    simp [applyEmits]
  | cons v vs ih =>
    intro s hP hkeys
    have hins : insert_sorted ⟨k, v⟩ (s.part (MR_Partitioner k s.P)).head =
        ⟨k, v⟩ :: (s.part (MR_Partitioner k s.P)).head := by
      cases hh : (s.part (MR_Partitioner k s.P)).head with
      | nil => rfl
      | cons h t =>
        have hkey : h.key = k := hkeys h (by rw [hh]; exact List.mem_cons_self h t)
        have hc : ¬ strcmp h.key (⟨k, v⟩ : KVPair).key = Ordering.lt := by
          show ¬ strcmp h.key k = Ordering.lt
          rw [hkey, (strcmp_eq_iff k k).2 rfl]
          simp
        simp [insert_sorted, hc]
    have hP' : (MR_Emit (some k) (some v) s).P = s.P := MR_Emit_P _ _ _
    have hpart := MR_Emit_part_hit k v s hP
    have hstep : ((MR_Emit (some k) (some v) s).part (MR_Partitioner k s.P)).head =
        ⟨k, v⟩ :: (s.part (MR_Partitioner k s.P)).head := by
      rw [hpart, hins]
    have happ : applyEmits (((v :: vs).map fun v => (k, v))) s =
        applyEmits ((vs.map fun v => (k, v))) (MR_Emit (some k) (some v) s) := rfl
    have hkeys' : ∀ pair ∈
        ((MR_Emit (some k) (some v) s).part
          (MR_Partitioner k (MR_Emit (some k) (some v) s).P)).head,
        pair.key = k := by
      rw [hP', hstep]
      intro pair hmem
      rcases List.mem_cons.1 hmem with rfl | hmem'
      · rfl
      · exact hkeys pair hmem'
    have := ih (MR_Emit (some k) (some v) s) (by rw [hP']; exact hP) hkeys'
    rw [hP'] at this
    rw [happ, this, hstep]
    simp

/-! ## Byte accumulator invariant -/

theorem MR_Emit_bytes {s : MRState} (k v : Bytes)
    (h : ∀ idx, (s.part idx).bytes = liveBytes (s.part idx).head) :
    ∀ idx, ((MR_Emit (some k) (some v) s).part idx).bytes =
      liveBytes ((MR_Emit (some k) (some v) s).part idx).head := by
  intro idx
  by_cases hP : s.P = 0
  · rw [MR_Emit_zero k v hP]
    exact h idx
  · by_cases hidx : idx = MR_Partitioner k s.P
    · subst hidx
      rw [MR_Emit_part_hit k v s (Nat.pos_of_ne_zero hP)]
      show (s.part (MR_Partitioner k s.P)).bytes + (k.length + v.length + 2) =
        liveBytes (insert_sorted ⟨k, v⟩ (s.part (MR_Partitioner k s.P)).head)
      have hperm :=
        (insert_sorted_perm ⟨k, v⟩ (s.part (MR_Partitioner k s.P)).head).map pairBytes
      have hsum : liveBytes (insert_sorted ⟨k, v⟩ (s.part (MR_Partitioner k s.P)).head) =
          liveBytes (⟨k, v⟩ :: (s.part (MR_Partitioner k s.P)).head) :=
        hperm.sum_eq
      rw [hsum, h (MR_Partitioner k s.P)]
      simp [liveBytes, pairBytes]
      omega
    · rw [MR_Emit_part_miss k v s hidx]
      exact h idx

theorem applyEmits_bytes (es : List (Bytes × Bytes)) :
    ∀ s : MRState, (∀ idx, (s.part idx).bytes = liveBytes (s.part idx).head) →
      ∀ idx, ((applyEmits es s).part idx).bytes =
        liveBytes ((applyEmits es s).part idx).head := by
  induction es with
  | nil => exact fun s h => h
  | cons e es ih =>
    intro s h
    exact ih (MR_Emit (some e.1) (some e.2) s) (MR_Emit_bytes e.1 e.2 h)

/-! ## Partition-routing invariant -/

/-- Every live pair sits in the partition its key hashes to. -/
def partInv (P : Nat) (s : MRState) : Prop :=
  ∀ idx pair, pair ∈ (s.part idx).head → MR_Partitioner pair.key P = idx

theorem MR_Emit_none_key (v : Option Bytes) (s : MRState) :
    MR_Emit none v s = s := by
  cases v <;> rfl

theorem MR_Emit_none_val (k : Option Bytes) (s : MRState) :
    MR_Emit k none s = s := by
  cases k <;> rfl

theorem MR_Emit_partInv {s : MRState} (k v : Bytes) (h : partInv s.P s) :
    partInv s.P (MR_Emit (some k) (some v) s) := by
  intro idx pair hmem
  by_cases hP : s.P = 0
  · rw [MR_Emit_zero k v hP] at hmem
    exact h idx pair hmem
  · by_cases hidx : idx = MR_Partitioner k s.P
    · subst hidx
      rw [MR_Emit_part_hit k v s (Nat.pos_of_ne_zero hP)] at hmem
      have hmem' : pair ∈ (⟨k, v⟩ : KVPair) :: (s.part (MR_Partitioner k s.P)).head :=
        (insert_sorted_perm ⟨k, v⟩ _).mem_iff.1 hmem
      rcases List.mem_cons.1 hmem' with rfl | hold
      · rfl
      · exact h _ pair hold
    · rw [MR_Emit_part_miss k v s hidx] at hmem
      exact h idx pair hmem

theorem MR_GetNext_partInv (key : Option Bytes) (gidx : Nat) {s : MRState}
    (h : partInv s.P s) : partInv s.P (MR_GetNext key gidx s).2 := by
  intro idx pair hmem
  by_cases hidx : idx = gidx
  · subst hidx
    rcases (MR_GetNext_part_self key idx s).2 with heq | ⟨p0, hp0⟩
    · rw [heq] at hmem
      exact h idx pair hmem
    · exact h idx pair (by rw [hp0]; exact List.mem_cons_of_mem p0 hmem)
  · rw [MR_GetNext_part_ne key s hidx] at hmem
    exact h idx pair hmem

theorem applyOp_P (s : MRState) (op : MROp) : (applyOp s op).P = s.P := by
  cases op with
  | emit key value => exact MR_Emit_P key value s
  | getNext key idx => exact MR_GetNext_P key idx s

theorem applyOp_partInv {s : MRState} (op : MROp) (h : partInv s.P s) :
    partInv s.P (applyOp s op) := by
  cases op with
  | emit key value =>
    match key, value with
    | some k, some v => exact MR_Emit_partInv k v h
    | none, v =>
      show partInv s.P (MR_Emit none v s)
      rw [MR_Emit_none_key]
      exact h
    | some k, none =>
      show partInv s.P (MR_Emit (some k) none s)
      rw [MR_Emit_none_val]
      exact h
  | getNext key idx => exact MR_GetNext_partInv key idx h

theorem applyOps_partInv (ops : List MROp) :
    ∀ s : MRState, partInv s.P s → partInv s.P (applyOps ops s) := by
  induction ops with
  | nil => exact fun _ h => h
  | cons op ops ih =>
    intro s h
    have h1 : partInv (applyOp s op).P (applyOp s op) := by
      rw [applyOp_P]
      exact applyOp_partInv op h
    have h2 := ih (applyOp s op) h1
    rw [applyOp_P] at h2
    exact h2

theorem init_partInv (P : Nat) : partInv P (MR_init P) := by
  intro idx pair hmem
  rw [part_init] at hmem
  exact absurd hmem (List.not_mem_nil pair)

/-! ## Insertion-point decomposition (equal keys go behind the new pair) -/

theorem insert_walk_decomp (pair : KVPair) :
    ∀ l : List KVPair, ∃ l₁ l₂, l = l₁ ++ l₂ ∧
      insert_walk pair l = l₁ ++ pair :: l₂ ∧
      ∀ x ∈ l₁, strcmp x.key pair.key = Ordering.lt := by
  intro l
  induction l with
  | nil => exact ⟨[], [], rfl, rfl, by simp⟩
  | cons nxt rest ih =>
    by_cases h : strcmp nxt.key pair.key = Ordering.lt
    · rcases ih with ⟨l₁, l₂, he, hw, hk⟩
      refine ⟨nxt :: l₁, l₂, by simp [he], ?_, ?_⟩
      · simp [insert_walk, h, hw]
      · intro x hx
        rcases List.mem_cons.1 hx with rfl | hx'
        · exact h
        · exact hk x hx'
    · exact ⟨[], nxt :: rest, rfl, by simp [insert_walk, h], by simp⟩

theorem insert_sorted_decomp (pair : KVPair) (l : List KVPair) :
    ∃ l₁ l₂, l = l₁ ++ l₂ ∧
      insert_sorted pair l = l₁ ++ pair :: l₂ ∧
      ∀ x ∈ l₁, strcmp x.key pair.key = Ordering.lt := by
  cases l with
  | nil => exact ⟨[], [], rfl, rfl, by simp⟩
  | cons h t =>
    by_cases hc : strcmp h.key pair.key = Ordering.lt
    · rcases insert_walk_decomp pair t with ⟨l₁, l₂, he, hw, hk⟩
      refine ⟨h :: l₁, l₂, by simp [he], ?_, ?_⟩
      · simp [insert_sorted, hc, hw]
      · intro x hx
        rcases List.mem_cons.1 hx with rfl | hx'
        · exact hc
        · exact hk x hx'
    · exact ⟨[], h :: t, rfl, by simp [insert_sorted, hc], by simp⟩

/-! ## Job queue invariants -/

theorem add_job_to_queue_size (q : ThreadPool_job_queue_t) (job : ThreadPool_job_t) :
    (add_job_to_queue q job).size = q.size + 1 := by
  cases hq : q.head with
  | nil => simp [add_job_to_queue, hq]
  | cons h t =>
    simp only [add_job_to_queue, hq]
    split <;> rfl

theorem add_job_to_queue_perm (q : ThreadPool_job_queue_t) (job : ThreadPool_job_t) :
    List.Perm (add_job_to_queue q job).head (job :: q.head) := by
  rw [add_job_to_queue_head]
  exact List.perm_orderedInsert jobLE job q.head

theorem applyQOp_sorted {tp : ThreadPool_t} (op : QOp)
    (h : List.Sorted jobLE tp.jobs.head) :
    List.Sorted jobLE (applyQOp tp op).jobs.head := by
  cases op with
  | add job =>
    show List.Sorted jobLE (add_job_to_queue tp.jobs job).head
    rw [add_job_to_queue_head]
    exact List.Sorted.orderedInsert job tp.jobs.head h
  | get =>
    show List.Sorted jobLE (ThreadPool_get_job tp).2.jobs.head
    cases hh : tp.jobs.head with
    | nil => simp [ThreadPool_get_job, hh]
    | cons j rest =>
      simp only [ThreadPool_get_job, hh]
      rw [hh] at h
      exact h.of_cons

theorem applyQOps_sorted (ops : List QOp) :
    ∀ tp : ThreadPool_t, List.Sorted jobLE tp.jobs.head →
      List.Sorted jobLE (applyQOps ops tp).jobs.head := by
  induction ops with
  | nil => exact fun _ h => h
  | cons op ops ih =>
    intro tp h
    exact ih (applyQOp tp op) (applyQOp_sorted op h)

/-! ## Claims -/

/-- C2: for every key and every `P ≥ 1`, `MR_Partitioner` computes exactly
the djb2 hash the spec describes — seed `5381`, `h = h * 33 + c` per byte
in unsigned (wrapping) arithmetic — reduced mod `P`. -/
theorem partitioner_refines_djb2 (key : Bytes) (P : Nat) (_hP : 1 ≤ P) :
    MR_Partitioner key P = partitioner_spec key P := by
  unfold MR_Partitioner partitioner_spec djb2_spec
  have h : key.foldl (fun h c => (h * 33 + c) % 2 ^ 64) 5381 =
      (key.foldl (fun h c => h * 33 + c) 5381) % 2 ^ 64 := by
    have hfold := foldl_hash_mod key 5381
    rw [Nat.mod_eq_of_lt (by norm_num : (5381 : Nat) < 2 ^ 64)] at hfold
    exact hfold
  rw [h]

theorem partitioner_refines_djb2_witness :
    1 ≤ 10 ∧ MR_Partitioner [104, 101, 108, 108, 111] 10 =
      partitioner_spec [104, 101, 108, 108, 111] 10 :=
  ⟨by norm_num,
   partitioner_refines_djb2 [104, 101, 108, 108, 111] 10 (by norm_num)⟩

/-- C3: after any sequence of `MR_Emit` calls from the freshly initialized
state, every partition's key sequence is non-decreasing under byte
compare: any two adjacent pairs `a, b` satisfy `strcmp(a.key, b.key) <= 0`. -/
theorem partition_keys_sorted (es : List (Bytes × Bytes)) (P idx : Nat) :
    List.Chain' pairLE ((applyEmits es (MR_init P)).part idx).head :=
  (applyEmits_sorted es (MR_init P) (fun i => init_sorted P i) idx).chain'

/-- C8: after any sequence of emit/get_next operations on the freshly
initialized state with partition count `P`, every pair live in partition
`idx` has `MR_Partitioner(key, P) = idx`. -/
theorem pairs_live_in_hashed_partition (ops : List MROp) (P idx : Nat)
    (pair : KVPair)
    (h : pair ∈ ((applyOps ops (MR_init P)).part idx).head) :
    MR_Partitioner pair.key P = idx := by
  have hinv := applyOps_partInv ops (MR_init P)
    (by rw [P_init]; exact init_partInv P)
  rw [P_init] at hinv
  exact hinv idx pair h

theorem pairs_live_in_hashed_partition_witness :
    (⟨[97], [49]⟩ : KVPair) ∈
      ((applyOps [MROp.emit (some [97]) (some [49])] (MR_init 1)).part 0).head ∧
    MR_Partitioner [97] 1 = 0 :=
  ⟨by decide,
   pairs_live_in_hashed_partition [MROp.emit (some [97]) (some [49])] 1 0
     ⟨[97], [49]⟩ (by decide)⟩

/-- C6: invalid arguments are silently ignored: `MR_Emit` with a NULL key,
a NULL value, or zero partitions leaves the state unchanged, and
`MR_GetNext` with a NULL key or an out-of-range partition index returns
NULL leaving the state unchanged. -/
theorem invalid_args_ignored :
    (∀ (v : Option Bytes) (s : MRState), MR_Emit none v s = s) ∧
    (∀ (k : Option Bytes) (s : MRState), MR_Emit k none s = s) ∧
    (∀ (k v : Bytes) (s : MRState), s.P = 0 → MR_Emit (some k) (some v) s = s) ∧
    (∀ (idx : Nat) (s : MRState), MR_GetNext none idx s = (none, s)) ∧
    (∀ (k : Bytes) (idx : Nat) (s : MRState), s.P ≤ idx →
      MR_GetNext (some k) idx s = (none, s)) := by
  refine ⟨MR_Emit_none_key, MR_Emit_none_val, ?_, ?_, ?_⟩
  · intro k v s h
    exact MR_Emit_zero k v h
  · intro idx s
    rfl
  · intro k idx s h
    simp [MR_GetNext, h]

theorem invalid_args_ignored_witness :
    MR_Emit (some [97]) (some [98]) (MR_init 0) = MR_init 0 ∧
    MR_GetNext (some [97]) 5 (MR_init 2) = (none, MR_init 2) :=
  ⟨invalid_args_ignored.2.2.1 [97] [98] (MR_init 0) (by decide),
   invalid_args_ignored.2.2.2.2 [97] 5 (MR_init 2) (by decide)⟩

/-- C7: `ThreadPool_add_job` on a stopping pool rejects the job, returning
`false` with the pool unchanged; on a running pool it returns `true` and
enqueues exactly one job carrying the given function, argument and size
(all other pool fields untouched). -/
theorem add_job_reject_or_enqueue (tp : ThreadPool_t) (fn arg sz : Nat) :
    (tp.stop = true → ThreadPool_add_job tp fn arg sz = (false, tp)) ∧
    (tp.stop = false →
      (ThreadPool_add_job tp fn arg sz).1 = true ∧
      List.Perm (ThreadPool_add_job tp fn arg sz).2.jobs.head
        (⟨fn, arg, sz⟩ :: tp.jobs.head) ∧
      (ThreadPool_add_job tp fn arg sz).2.jobs.size = tp.jobs.size + 1 ∧
      (ThreadPool_add_job tp fn arg sz).2.stop = tp.stop ∧
      (ThreadPool_add_job tp fn arg sz).2.num_threads = tp.num_threads ∧
      (ThreadPool_add_job tp fn arg sz).2.active_workers = tp.active_workers) := by
  constructor
  · intro h
    simp [ThreadPool_add_job, h]
  · intro h
    have hT : ThreadPool_add_job tp fn arg sz =
        (true, { tp with jobs := add_job_to_queue tp.jobs ⟨fn, arg, sz⟩ }) := by
      simp [ThreadPool_add_job, h]
    rw [hT]
    exact ⟨rfl, add_job_to_queue_perm tp.jobs ⟨fn, arg, sz⟩,
      add_job_to_queue_size tp.jobs ⟨fn, arg, sz⟩, rfl, rfl, rfl⟩

theorem add_job_reject_or_enqueue_witness :
    ThreadPool_add_job ⟨1, 0, ⟨[], 0⟩, true⟩ 0 0 5 = (false, ⟨1, 0, ⟨[], 0⟩, true⟩) ∧
    (ThreadPool_add_job ⟨1, 0, ⟨[], 0⟩, false⟩ 0 0 5).1 = true :=
  ⟨(add_job_reject_or_enqueue ⟨1, 0, ⟨[], 0⟩, true⟩ 0 0 5).1 rfl,
   ((add_job_reject_or_enqueue ⟨1, 0, ⟨[], 0⟩, false⟩ 0 0 5).2 rfl).1⟩

/-- C5: starting from an empty queue, any sequence of `add_job_to_queue`
insertions and `ThreadPool_get_job` removals keeps the queue sorted
ascending by `job_size`; on a non-empty queue the next dequeue returns the
head job, whose `job_size` is minimal over the queue. -/
theorem sjf_queue_sorted_min_dequeue (ops : List QOp) (tp0 : ThreadPool_t)
    (h0 : tp0.jobs.head = []) :
    List.Chain' jobLE (applyQOps ops tp0).jobs.head ∧
    (∀ j rest, (applyQOps ops tp0).jobs.head = j :: rest →
      (ThreadPool_get_job (applyQOps ops tp0)).1 = some j ∧
      ∀ j' ∈ (applyQOps ops tp0).jobs.head, j.job_size ≤ j'.job_size) := by
  have hsorted : List.Sorted jobLE (applyQOps ops tp0).jobs.head :=
    applyQOps_sorted ops tp0 (by rw [h0]; exact List.sorted_nil)
  refine ⟨hsorted.chain', ?_⟩
  intro j rest hhead
  constructor
  · simp [ThreadPool_get_job, hhead]
  · intro j' hj'
    rw [hhead] at hsorted hj'
    rcases List.mem_cons.1 hj' with rfl | hj''
    · exact Nat.le_refl _
    · exact List.rel_of_sorted_cons hsorted j' hj''

theorem sjf_queue_sorted_min_dequeue_witness :
    (ThreadPool_get_job (applyQOps
      [QOp.add ⟨0, 0, 100⟩, QOp.add ⟨0, 0, 1⟩, QOp.add ⟨0, 0, 50⟩]
      ⟨1, 0, ⟨[], 0⟩, false⟩)).1 = some ⟨0, 0, 1⟩ :=
  ((sjf_queue_sorted_min_dequeue
      [QOp.add ⟨0, 0, 100⟩, QOp.add ⟨0, 0, 1⟩, QOp.add ⟨0, 0, 50⟩]
      ⟨1, 0, ⟨[], 0⟩, false⟩ rfl).2
    ⟨0, 0, 1⟩ [⟨0, 0, 50⟩, ⟨0, 0, 100⟩] (by decide)).1

/-- C4 as stated is false: with `P = 1`, after `MR_Emit("a", "b")` and a
successful `MR_GetNext("a", 0)` the partition's list is empty (live sum 0)
but the byte counter still holds 4 — `MR_GetNext` never decrements it. -/
theorem bytes_counter_counterexample :
    ¬ (((applyOps [MROp.emit (some [97]) (some [98]),
          MROp.getNext (some [97]) 0] (MR_init 1)).part 0).bytes =
        liveBytes ((applyOps [MROp.emit (some [97]) (some [98]),
          MROp.getNext (some [97]) 0] (MR_init 1)).part 0).head) := by
  decide

/-- C4 amended: after any sequence of `MR_Emit` calls the byte counter
equals the sum of `len(key)+len(value)+2` over the pairs in the list, but
`MR_GetNext` removes pairs without changing any byte counter — so with
get_next operations the counter tracks the pairs ever emitted, not the
live ones. -/
theorem bytes_counter_amended :
    (∀ (es : List (Bytes × Bytes)) (P idx : Nat),
      ((applyEmits es (MR_init P)).part idx).bytes =
        liveBytes ((applyEmits es (MR_init P)).part idx).head) ∧
    (∀ (key : Option Bytes) (gidx idx : Nat) (s : MRState),
      (((MR_GetNext key gidx s).2).part idx).bytes = (s.part idx).bytes) := by
  constructor
  · intro es P idx
    apply applyEmits_bytes
    intro i
    rw [part_init]
    rfl
  · intro key gidx idx s
    by_cases h : idx = gidx
    · subst h
      exact (MR_GetNext_part_self key idx s).1
    · rw [MR_GetNext_part_ne key s h]

/-- C1 as stated is false: with `P = 1`, after `emit("a","1")` and
`emit("b","2")` the drain of key `"b"` stops at once (the head key is
`"a"`), returning 0 values although `"b"` was emitted once. -/
theorem drain_multiset_counterexample :
    ¬ ((drainState
          (((applyEmits [([97], [49]), ([98], [50])] (MR_init 1)).part
            (MR_Partitioner [98] 1)).head.length)
          [98] (MR_Partitioner [98] 1)
          (applyEmits [([97], [49]), ([98], [50])] (MR_init 1))).1.length =
        (emittedFor [98] [([97], [49]), ([98], [50])]).length ∧
      List.Perm
        (drainState
          (((applyEmits [([97], [49]), ([98], [50])] (MR_init 1)).part
            (MR_Partitioner [98] 1)).head.length)
          [98] (MR_Partitioner [98] 1)
          (applyEmits [([97], [49]), ([98], [50])] (MR_init 1))).1
        (emittedFor [98] [([97], [49]), ([98], [50])])) := by
  decide

/-- C1 amended: provided every live pair of `k`'s partition with a key
other than `k` has a strictly larger key (as holds when the reducer drains
keys in ascending order), repeatedly calling `MR_GetNext(k, partitioner(k))`
until NULL returns exactly the multiset of values emitted for `k`; in
particular their number equals the number of emits for `k`. -/
theorem drain_yields_emitted_multiset (es : List (Bytes × Bytes)) (k : Bytes)
    (P : Nat) (hP : 0 < P)
    (hmin : ∀ pair ∈
        ((applyEmits es (MR_init P)).part (MR_Partitioner k P)).head,
      pair.key ≠ k → strcmp k pair.key = Ordering.lt) :
    List.Perm
      (drainState
        (((applyEmits es (MR_init P)).part (MR_Partitioner k P)).head.length)
        k (MR_Partitioner k P) (applyEmits es (MR_init P))).1
      (emittedFor k es) ∧
    (drainState
        (((applyEmits es (MR_init P)).part (MR_Partitioner k P)).head.length)
        k (MR_Partitioner k P) (applyEmits es (MR_init P))).1.length =
      (emittedFor k es).length := by
  have hsP : (applyEmits es (MR_init P)).P = P := by
    rw [applyEmits_P, P_init]
  have hplt : MR_Partitioner k P < (applyEmits es (MR_init P)).P := by
    rw [hsP]
    exact MR_Partitioner_lt k hP
  have hdrain := drainState_eq k
    (((applyEmits es (MR_init P)).part (MR_Partitioner k P)).head.length)
    (applyEmits es (MR_init P)) (MR_Partitioner k P) hplt (Nat.le_refl _)
  have hsorted : List.Sorted pairLE
      ((applyEmits es (MR_init P)).part (MR_Partitioner k P)).head :=
    applyEmits_sorted es (MR_init P) (fun i => init_sorted P i) _
  have htf := takeWhile_eq_filter_of_min k
    ((applyEmits es (MR_init P)).part (MR_Partitioner k P)).head hsorted hmin
  have hperm : List.Perm
      ((applyEmits es (MR_init P)).part (MR_Partitioner k P)).head
      (routed P (MR_Partitioner k P) es) := by
    have hp := applyEmits_part_perm es (MR_init P) (MR_Partitioner k P)
      (by rw [P_init]; exact hP)
    rw [P_init, part_init] at hp
    simpa [Partition.empty] using hp
  have hfilter := hperm.filter (keyMatches k)
  have hval : List.Perm
      ((((applyEmits es (MR_init P)).part (MR_Partitioner k P)).head.filter
        (keyMatches k)).map KVPair.value)
      (emittedFor k es) := by
    have hm := hfilter.map KVPair.value
    rw [filter_routed k P es, List.map_map] at hm
    have hcomp : (KVPair.value ∘ fun v => (⟨k, v⟩ : KVPair)) = id := rfl
    rw [hcomp, List.map_id] at hm
    exact hm
  have hmain : List.Perm
      (drainState
        (((applyEmits es (MR_init P)).part (MR_Partitioner k P)).head.length)
        k (MR_Partitioner k P) (applyEmits es (MR_init P))).1
      (emittedFor k es) := by
    rw [hdrain, htf]
    exact hval
  exact ⟨hmain, hmain.length_eq⟩

theorem drain_yields_emitted_multiset_witness :
    List.Perm
      (drainState
        (((applyEmits [([97], [49]), ([98], [50])] (MR_init 1)).part
          (MR_Partitioner [97] 1)).head.length)
        [97] (MR_Partitioner [97] 1)
        (applyEmits [([97], [49]), ([98], [50])] (MR_init 1))).1
      (emittedFor [97] [([97], [49]), ([98], [50])]) :=
  (drain_yields_emitted_multiset [([97], [49]), ([98], [50])] [97] 1
    (by decide) (by decide)).1

/-- C10: `insert_sorted` splices the new pair in before every existing
pair whose key equals its own; consequently, after emitting the values
`vs` for one key in order, draining that key returns them in reverse
emission (LIFO) order. -/
theorem insert_before_equal_lifo :
    (∀ (pair : KVPair) (l : List KVPair), ∃ l₁ l₂, l = l₁ ++ l₂ ∧
      insert_sorted pair l = l₁ ++ pair :: l₂ ∧
      ∀ x ∈ l₁, x.key ≠ pair.key) ∧
    (∀ (k : Bytes) (vs : List Bytes) (P : Nat), 0 < P →
      (drainState
          (((applyEmits (vs.map fun v => (k, v)) (MR_init P)).part
            (MR_Partitioner k P)).head.length)
          k (MR_Partitioner k P)
          (applyEmits (vs.map fun v => (k, v)) (MR_init P))).1 = vs.reverse) := by
  constructor
  · intro pair l
    rcases insert_sorted_decomp pair l with ⟨l₁, l₂, he, hi, hk⟩
    refine ⟨l₁, l₂, he, hi, ?_⟩
    intro x hx hkey
    have hlt := hk x hx
    rw [hkey] at hlt
    rw [(strcmp_eq_iff pair.key pair.key).2 rfl] at hlt
    exact absurd hlt (by decide)
  · intro k vs P hP
    have hconst := applyEmits_const_key k vs (MR_init P)
      (by rw [P_init]; exact hP)
      (by
        rw [P_init, part_init]
        intro pair hmem
        exact absurd hmem (List.not_mem_nil pair))
    rw [P_init] at hconst
    rw [part_init] at hconst
    have hconst' :
        ((applyEmits (vs.map fun v => (k, v)) (MR_init P)).part
          (MR_Partitioner k P)).head =
          vs.reverse.map fun v => (⟨k, v⟩ : KVPair) := by
      simpa [Partition.empty] using hconst
    have hsP : (applyEmits (vs.map fun v => (k, v)) (MR_init P)).P = P := by
      rw [applyEmits_P, P_init]
    have hplt : MR_Partitioner k P <
        (applyEmits (vs.map fun v => (k, v)) (MR_init P)).P := by
      rw [hsP]
      exact MR_Partitioner_lt k hP
    have hdrain := drainState_eq k
      (((applyEmits (vs.map fun v => (k, v)) (MR_init P)).part
        (MR_Partitioner k P)).head.length)
      (applyEmits (vs.map fun v => (k, v)) (MR_init P))
      (MR_Partitioner k P) hplt (Nat.le_refl _)
    rw [hdrain, hconst']
    have htake : ∀ ws : List Bytes,
        ((ws.map fun v => (⟨k, v⟩ : KVPair)).takeWhile (keyMatches k)) =
          ws.map fun v => (⟨k, v⟩ : KVPair) := by
      intro ws
      induction ws with
      | nil => rfl
      | cons w ws ihw =>
        simp [List.takeWhile_cons, keyMatches, strcmp_eq_iff, ihw]
    rw [htake, List.map_map]
    have hcomp : (KVPair.value ∘ fun v => (⟨k, v⟩ : KVPair)) = id := rfl
    rw [hcomp, List.map_id]

theorem insert_before_equal_lifo_witness :
    (drainState
        (((applyEmits ([[49], [50]].map fun v => (([97] : Bytes), v)) (MR_init 1)).part
          (MR_Partitioner [97] 1)).head.length)
        [97] (MR_Partitioner [97] 1)
        (applyEmits ([[49], [50]].map fun v => (([97] : Bytes), v)) (MR_init 1))).1 =
      [[50], [49]] :=
  (insert_before_equal_lifo.2 [97] [[49], [50]] 1 (by decide)).trans (by decide)

end MapReduce
